import Mathlib

/-!
Verification development for `src/graphs.py` (pmfenix_graph).

The file shallowly embeds the data-processing core of `graphs.py`:
the per-file series parser `read_data`, the tail-window statistics it
computes, the group aggregation and annotation logic of `create_plot`,
the adjacent-group significance comparisons, the violin y-axis range
policy, and the group-label deriver `get_group_name` (together with its
helpers `find_varying_parts` and `split_filename`).

Modelling conventions:
* Python floats are modelled as exact rationals (`ℚ`); `numpy` means and
  variances therefore become exact rational arithmetic, and `np.std` is
  `Real.sqrt` of the population variance.  `round(n_points * 0.2)` is
  modelled as exact nearest-integer rounding of `n / 5`: the exact value
  `n / 5` has fractional part in {0, .2, .4, .6, .8}, so it is never at a
  rounding tie and the double-precision computation in Python agrees with
  the exact one for all realistic `n`.
* File contents are modelled as the list of their lines (`List String`);
  the filesystem checks of `validate_file` (existence, zero size) collapse
  to the `lines = []` case, and `DataError.notFound` is never produced by
  the model.
* Python strings are manipulated as `List Char`; `str.split()`,
  `str.split(sep)`, `os.path.basename` and `os.path.splitext` are embedded
  directly below.
-/

set_option maxRecDepth 20000

/-! ## Python string primitives -/

/-- Helper for `splitWs`: accumulates the current (reversed) token. -/
def splitWsAux : List Char → List Char → List (List Char)
  | [], cur => if cur.isEmpty then [] else [cur.reverse]
  | c :: rest, cur =>
    if c.isWhitespace then
      if cur.isEmpty then splitWsAux rest [] else cur.reverse :: splitWsAux rest []
    else
      splitWsAux rest (c :: cur)

/-- Python `line.split()` (no argument): split on runs of whitespace,
dropping empty tokens.  `graphs.py` line 256 additionally filters empty
strings, which `str.split()` already never produces. -/
def splitWs (l : List Char) : List (List Char) :=
  splitWsAux l []

/-- Python `s.split(sep)` for a one-character separator: always returns
`k + 1` (possibly empty) parts for `k` separators. -/
def splitOnChar (sep : Char) : List Char → List (List Char)
  | [] => [[]]
  | c :: rest =>
    if c = sep then
      [] :: splitOnChar sep rest
    else
      match splitOnChar sep rest with
      | h :: t => (c :: h) :: t
      | [] => [[c]]

/-- Python `'_'.join(parts)`. -/
def joinU : List (List Char) → List Char
  | [] => []
  | [s] => s
  | s :: rest => s ++ '_' :: joinU rest

/-- Python `os.path.basename` (posix): the part after the last `'/'`. -/
def pyBasename (l : List Char) : List Char :=
  (l.reverse.takeWhile (· != '/')).reverse

/-- Root component of Python `os.path.splitext` for a slash-free name:
drop the last `'.'`-extension, unless every character before the last dot
is itself a dot (e.g. `".bashrc"` keeps its name). -/
def splitextRoot (l : List Char) : List Char :=
  match l.reverse.span (· != '.') with
  | (_, []) => l
  | (_, _ :: revRoot) =>
    if revRoot.all (· = '.') then l else revRoot.reverse

/-- Lexicographic (code-point) order on strings, as used by Python
`sorted` on `str`. -/
def lexLe : List Char → List Char → Bool
  | [], _ => true
  | _ :: _, [] => false
  | a :: as_, b :: bs => if a = b then lexLe as_ bs else decide (a.toNat < b.toNat)

/-- Insert into a `lexLe`-sorted list. -/
def insertSorted (x : List Char) : List (List Char) → List (List Char)
  | [] => [x]
  | y :: ys => if lexLe x y then x :: y :: ys else y :: insertSorted x ys

/-- Insertion sort by `lexLe`; on duplicate-free input this is Python
`sorted` (the order used on label fragments in `get_group_name`). -/
def sortStrs (l : List (List Char)) : List (List Char) :=
  l.foldr insertSorted []

/-! ## Numeric-field parsing (`read_data` lines 262-264) -/

/-- Decimal value of a digit string. -/
def natOfDigits (l : List Char) : ℕ :=
  l.foldl (fun a c => 10 * a + (c.toNat - 48)) 0

/-- Every character is an ASCII digit. -/
def allDigits (l : List Char) : Bool :=
  l.all Char.isDigit

/-- Python `float(s)` restricted to strings over digits, `'.'` and `'-'`
(the only characters surviving the stripping step below): an optional
leading minus, then digits with at most one dot and at least one digit.
Returns `none` exactly when Python `float` raises `ValueError`. -/
def parseUnsigned (l : List Char) : Option ℚ :=
  match l.span (· != '.') with
  | (intPart, []) =>
    if intPart.isEmpty then none
    else if allDigits intPart then some (natOfDigits intPart) else none
  | (intPart, _ :: fracPart) =>
    if allDigits intPart && allDigits fracPart && !(intPart.isEmpty && fracPart.isEmpty) then
      some ((natOfDigits intPart : ℚ) + (natOfDigits fracPart : ℚ) / (10 : ℚ) ^ fracPart.length)
    else none

/-- Signed variant of `parseUnsigned`: Python `float` accepts one leading
`'-'`. -/
def parsePyFloat : List Char → Option ℚ
  | '-' :: rest => (parseUnsigned rest).map (fun q => -q)
  | l => parseUnsigned l

/-- The stripping step of `graphs.py` lines 263-264:
`''.join(c for c in token if c.isdigit() or c == '.' or c == '-')`. -/
def stripToNumeric (l : List Char) : List Char :=
  l.filter (fun c => c.isDigit || c == '.' || c == '-')

/-- `parts[2].lower().startswith('distance')` (`graphs.py` line 260). -/
def isDistanceToken (t : List Char) : Bool :=
  List.isPrefixOf "distance".data (t.map Char.toLower)

/-! ## `read_data` -/

/-- Error taxonomy of `DataError` messages raised in `graphs.py`
(`notFound` belongs to the unmodelled filesystem check). -/
inductive DataError where
  | notFound
  | emptyFile
  | noData
  | malformedLine
  | allZeroX
  | allZeroY
  | insufficientPoints
  | insufficientTail
  deriving DecidableEq, Repr

/-- Accumulator of the line loop in `read_data`: the `x` and `y` lists and
the `is_distance` flag. -/
structure LineAcc where
  x : List ℚ
  y : List ℚ
  isDistance : Bool
  deriving DecidableEq, Repr

/-- One iteration of the line loop of `read_data` (lines 254-268), on the
already-tokenized line.  Lines with fewer than 4 tokens are skipped;
otherwise tokens 1 and 3 are stripped and float-parsed, and a failed parse
raises `DataError` (modelled as `malformedLine`), aborting the whole file.
(The Python code flips the file-level `is_distance` flag before attempting
the numeric parse; since a parse failure aborts the file, recording the
flag only on success is observationally identical.) -/
def processParts (acc : LineAcc) (parts : List (List Char)) : Except DataError LineAcc :=
  match parts with
  | _ :: t1 :: t2 :: t3 :: _ =>
    match parsePyFloat (stripToNumeric t1), parsePyFloat (stripToNumeric t3) with
    | some xv, some yv =>
      .ok ⟨acc.x ++ [xv], acc.y ++ [yv], acc.isDistance || isDistanceToken t2⟩
    | _, _ => .error .malformedLine
  | _ => .ok acc

/-- One iteration of the line loop on a raw line. -/
def processLine (acc : LineAcc) (line : String) : Except DataError LineAcc :=
  processParts acc (splitWs line.data)

/-- Arithmetic mean (`np.mean`), exact over `ℚ`. -/
def mean (l : List ℚ) : ℚ :=
  l.sum / (l.length : ℚ)

/-- Population variance (`np.std(...)**2` with the default `ddof=0`):
divide by `k`, not `k - 1`. -/
def pvariance (l : List ℚ) : ℚ :=
  ((l.map (fun v => (v - mean l) ^ 2)).sum) / (l.length : ℚ)

/-- Sample variance with `ddof = 1`, as used inside `scipy.stats.ttest_ind`. -/
def svar (l : List ℚ) : ℚ :=
  ((l.map (fun v => (v - mean l) ^ 2)).sum) / ((l.length : ℚ) - 1)

/-- `np.std` (population standard deviation). -/
noncomputable def stdOf (l : List ℚ) : ℝ :=
  Real.sqrt (pvariance l)

/-- Mean of a list of reals (`np.mean` applied to already-computed
standard deviations). -/
noncomputable def rmean (l : List ℝ) : ℝ :=
  l.sum / (l.length : ℝ)

/-- `round(n_points * 0.2)` for `n_points = n`: exact nearest-integer
rounding of `n / 5`, i.e. `⌊(2n + 5) / 10⌋`.  The exact value `n / 5` is
never at a `.5` tie, so Python's banker's rounding and the double-precision
product agree with this for all file-sized `n` (see the header comment). -/
def round20 (n : ℕ) : ℕ :=
  (2 * n + 5) / 10

/-- Successful result of `read_data`.  Python returns the tuple
`(x, y, y_last, np.mean(y_last), np.std(y_last), is_distance)`; the last
four components are pure functions of `y`, so the embedding stores
`x`, `y` and `is_distance` and derives the rest (`y_lastOf`, `file_avg`,
`file_var`, `file_std` below), which keeps the parser free of rational
division. -/
structure ReadResult where
  x : List ℚ
  y : List ℚ
  isDistance : Bool
  deriving DecidableEq, Repr

/-- The tail window `y_np[-last_20_percent:]` of a parse result
(`graphs.py` lines 285-289).  `read_data` guarantees
`1 ≤ round20 y.length ≤ y.length`, under which dropping all but the last
`round20 y.length` elements is exactly the Python negative slice. -/
def y_lastOf (r : ReadResult) : List ℚ :=
  r.y.drop (r.y.length - round20 r.y.length)

/-- Component 4 of the `read_data` tuple: `np.mean(y_last)`. -/
def file_avg (r : ReadResult) : ℚ :=
  mean (y_lastOf r)

/-- The square of component 5 of the `read_data` tuple: the population
variance of the tail window. -/
def file_var (r : ReadResult) : ℚ :=
  pvariance (y_lastOf r)

/-- Component 5 of the `read_data` tuple: `np.std(y_last)`. -/
noncomputable def file_std (r : ReadResult) : ℝ :=
  Real.sqrt (file_var r)

instance {ε α : Type} [DecidableEq ε] [DecidableEq α] : DecidableEq (Except ε α) := fun a b =>
  match a, b with
  | .error e, .error f => decidable_of_iff (e = f) (by simp)
  | .ok x, .ok y => decidable_of_iff (x = y) (by simp)
  | .error _, .ok _ => isFalse (by simp)
  | .ok _, .error _ => isFalse (by simp)

/-- `read_data` (`graphs.py` lines 242-293) on the file's lines.
Mirrors the Python control flow: empty file, line loop (with fail-fast
`DataError` on malformed numeric fields), the no-data and all-zero checks,
the minimum-5-points check, the 20% tail-window size check, and finally
the tail slice `y_np[-last_20_percent:]` with its mean and (population)
standard deviation. -/
def read_data (lines : List String) : Except DataError ReadResult :=
  if lines.isEmpty then .error .emptyFile
  else
    match lines.foldlM processLine ⟨[], [], false⟩ with
    | .error e => .error e
    | .ok acc =>
      if acc.x.isEmpty || acc.y.isEmpty then .error .noData
      else if acc.x.all (· == 0) then .error .allZeroX
      else if acc.y.all (· == 0) then .error .allZeroY
      else if acc.y.length < 5 then .error .insufficientPoints
      else if round20 acc.y.length < 1 then .error .insufficientTail
      else .ok ⟨acc.x, acc.y, acc.isDistance⟩

/-! ## Group processing (`create_plot`, lines 309-567)

A file is modelled as its identifier together with its lines; a group is a
list of files, and `create_plot` receives the ordered list of groups.
The `os.path.exists` pre-check is filesystem-only and unmodelled; every
other per-file failure is a `DataError` from `read_data`. -/

/-- A `FileRecord`: identifier plus the file's lines. -/
abbrev FileRec := String × List String

/-- The `valid_files` loop of `create_plot` (lines 352-365): parse results
of the files whose `read_data` succeeded, in group order. -/
def validResults (g : List FileRec) : List ReadResult :=
  g.filterMap (fun f => (read_data f.2).toOption)

/-- The per-file diagnostics of `create_plot` (line 364): each failing
file is surfaced as a warning carrying its identifier, and skipped. -/
def diagnostics (g : List FileRec) : List (String × DataError) :=
  g.filterMap (fun f =>
    match read_data f.2 with
    | .error e => some (f.1, e)
    | .ok _ => none)

/-- `combined_avgs` (lines 327, 371): the per-file tail means of all valid
files, accumulated across every group. -/
def combinedAvgs (groups : List (List FileRec)) : List ℚ :=
  (groups.map (fun g => (validResults g).map file_avg)).flatten

/-- `combined_stds` (lines 328, 372): the per-file tail standard
deviations of all valid files, accumulated across every group. -/
noncomputable def combinedStds (groups : List (List FileRec)) : List ℝ :=
  (groups.map (fun g => (validResults g).map file_std)).flatten

/-- `is_combined` (lines 445 and 469): more than one group, or a single
group listing more than one file (raw group size, invalid files
included). -/
def isCombined (groups : List (List FileRec)) : Bool :=
  decide (1 < groups.length) ||
    (decide (groups.length = 1) && decide (1 < (groups.headD []).length))

/-- The "Average of Averages / Average of Standard Deviations" text block
(lines 446-454): present exactly when `is_combined` holds and the
accumulators are non-empty, and reporting the mean of the per-file means
together with the mean of the per-file standard deviations. -/
noncomputable def combinedStatsNote (groups : List (List FileRec)) : Option (ℚ × ℝ) :=
  if isCombined groups && !(combinedAvgs groups).isEmpty && !(combinedStds groups).isEmpty then
    some (mean (combinedAvgs groups), rmean (combinedStds groups))
  else none

/-- The violin traces (lines 394-429): one trace per group with at least
one valid file, holding the concatenation of the members' tail windows
(a single valid file contributes its own tail window — the `join` of a
one-element list). -/
def violinTraces (groups : List (List FileRec)) : List (List ℚ) :=
  groups.filterMap (fun g =>
    let rs := validResults g
    if rs.isEmpty then none else some ((rs.map y_lastOf).flatten))

/-- The scatter-scene group list (lines 377-393): one trend trace per
group with at least one valid file; the trace is drawn from that group's
own valid parse results only. -/
def scatterGroups (groups : List (List FileRec)) : List (List ReadResult) :=
  groups.filterMap (fun g =>
    let rs := validResults g
    if rs.isEmpty then none else some rs)

/-- The run-wide `is_distance` flag (line 358): `or` over every valid
file's flag. -/
def anyDistance (groups : List (List FileRec)) : Bool :=
  groups.any (fun g => (validResults g).any (·.isDistance))

/-- `max` of a non-empty list (Python `max`); the `[]` case is never
reached by `yaxisRange`. -/
def listMax : List ℚ → ℚ
  | [] => 0
  | a :: t => t.foldl max a

/-- `min` of a non-empty list (Python `min`). -/
def listMin : List ℚ → ℚ
  | [] => 0
  | a :: t => t.foldl min a

/-- The shared violin y-axis range (lines 464-478): over the
concatenation of all violin traces, when that is non-empty and
`is_combined` holds; Distance data gets a proportional 5% margin and
Count data a fixed −20/+25 margin, the lower bound clamped at 0 by
`max(0, ...)` in both branches. -/
def yaxisRange (groups : List (List FileRec)) : Option (ℚ × ℚ) :=
  let ys := (violinTraces groups).flatten
  if !ys.isEmpty && isCombined groups then
    let mx := listMax ys
    let mn := listMin ys
    if anyDistance groups then
      some (max 0 (mn - mn * (1 / 20)), mx + mx * (1 / 20))
    else
      some (max 0 (mn - 20), mx + 25)
  else none

/-! ## Adjacent-group significance tests (lines 529-555)

`scipy.stats.ttest_ind(y1, y2, equal_var=False)` computes Welch's
unequal-variance two-sample t statistic; its p-value comes from the
Student t distribution, a transcendental function that has no shallow
embedding, so the comparison builder below is parameterized by the
p-value function `pval` while the statistic itself is embedded. -/

/-- Welch's t statistic, as computed by
`scipy.stats.ttest_ind(a, b, equal_var=False)`:
`(mean a - mean b) / sqrt(svar a / len a + svar b / len b)` with the
unbiased (`ddof = 1`) variances. -/
noncomputable def welchT (a b : List ℚ) : ℝ :=
  ((mean a : ℝ) - (mean b : ℝ)) /
    Real.sqrt ((svar a : ℝ) / (a.length : ℝ) + (svar b : ℝ) / (b.length : ℝ))

/-- One adjacent-pair comparison: trace indices, Welch statistic,
p-value. -/
structure Comparison where
  lo : ℕ
  hi : ℕ
  t : ℝ
  p : ℝ

/-- `p_val < 0.05` — the significance criterion of line 538 (strict). -/
def significant (c : Comparison) : Prop :=
  c.p < 0.05

open Classical in
/-- The annotation colour choice of lines 538-541: red when significant,
else black. -/
noncomputable def colorOf (c : Comparison) : String :=
  if c.p < 0.05 then "rgba(255,0,0,0.7)" else "rgba(0,0,0,0.7)"

/-- The p-value annotation loop (lines 531-554): only when at least two
violin traces exist, one comparison for each consecutive pair of traces
`(i, i+1)`, in display order. -/
noncomputable def comparisons (pval : List ℚ → List ℚ → ℝ)
    (groups : List (List FileRec)) : List Comparison :=
  if 1 < (violinTraces groups).length then
    (List.range ((violinTraces groups).length - 1)).map (fun i =>
      ⟨i, i + 1,
        welchT ((violinTraces groups).getD i []) ((violinTraces groups).getD (i + 1) []),
        pval ((violinTraces groups).getD i []) ((violinTraces groups).getD (i + 1) [])⟩)
  else []

/-! ## The label deriver (`get_group_name` and helpers, lines 118-210)

Names are handled as `List Char`.  Python's `sorted(set(xs))` on strings
is the unique lexicographically sorted duplicate-free list with the same
elements, embedded here as insertion sort over `List.dedup`. -/

/-- `allEqB vs`: `len(set(vs)) <= 1` for a concrete list. -/
def allEqB {α : Type} [DecidableEq α] : List α → Bool
  | [] => true
  | a :: t => t.all (· = a)

/-- `find_varying_parts` (lines 118-139): re-apply `basename`/`splitext`
to every name (line 126 does so even though `get_group_name` already
passes stripped base names), split each on `'_'` and collect, in
increasing order, the positions (indexed over the first name's parts) at
which the names' parts are not all equal, out-of-range parts reading as
`None`. -/
def find_varying_parts (names : List (List Char)) : List ℕ :=
  if names.length ≤ 1 then []
  else
    let all_parts := names.map (fun f => splitOnChar '_' (splitextRoot (pyBasename f)))
    (List.range (all_parts.headD []).length).filter
      (fun i => !allEqB (all_parts.map (fun ps => ps[i]?)))

/-- `split_filename` (lines 141-157): split a name into the `'_'`-joined
parts before the first varying position, the parts at the varying
positions (skipping out-of-range ones), and the parts after the last
varying position.  The Python function re-applies `basename`/`splitext`
to its argument even though `get_group_name` already passes stripped base
names, so the model does too. -/
def split_filename (name : List Char) (vps : List ℕ) : List Char × List (List Char) × List Char :=
  let base := splitextRoot (pyBasename name)
  let parts := splitOnChar '_' base
  match vps with
  | [] => (base, [], [])
  | v0 :: rest =>
    (joinU (parts.take v0),
     (v0 :: rest).filterMap (fun i => parts[i]?),
     joinU (parts.drop ((v0 :: rest).getLastD 0 + 1)))

/-- Python `s.rsplit('_', 1)[0]`: drop the part after the last `'_'`;
when `s` contains no `'_'` the result is `s` itself (so the shrinking
loop below makes no progress — see `shrinkCommonPre`). -/
def rsplitDrop (s : List Char) : List Char :=
  match s.reverse.span (· != '_') with
  | (_, []) => s
  | (_, _ :: revInit) => revInit.reverse

/-- Python `s.split('_', 1)[1]`: the part after the first `'_'`.  When
`s` contains no `'_'` Python raises `IndexError`; the model returns `s`
unchanged in that (divergent) case, which no theorem below exercises. -/
def split1Tail (s : List Char) : List Char :=
  match s.span (· != '_') with
  | (_, []) => s
  | (_, _ :: tail) => tail

/-- The common-prefix shrinking loop of lines 184-185:
`while not pre.startswith(cp) and cp: cp = cp.rsplit('_', 1)[0]`.
Fueled: each productive step strictly shortens `cp`, so fuel
`cp.length + 1` suffices; when `cp` has no `'_'` left and still does not
match, Python loops forever, which the fuel cut-off models (no theorem
below reaches that state). -/
def shrinkCommonPre : ℕ → List Char → List Char → List Char
  | 0, cp, _ => cp
  | n + 1, cp, pre =>
    if !cp.isEmpty && !(List.isPrefixOf cp pre) then
      shrinkCommonPre n (rsplitDrop cp) pre
    else cp

/-- The common-suffix shrinking loop of lines 188-189:
`while not suf.endswith(cs) and cs: cs = cs.split('_', 1)[1]`, fueled like
`shrinkCommonPre` (Python raises `IndexError` where the loop would be
unproductive). -/
def shrinkCommonSuf : ℕ → List Char → List Char → List Char
  | 0, cs, _ => cs
  | n + 1, cs, suf =>
    if !cs.isEmpty && !(List.isSuffixOf cs suf) then
      shrinkCommonSuf n (split1Tail cs) suf
    else cs

/-- `get_group_name` (lines 159-210).  A single file short-circuits to
its basename; otherwise the name is assembled from the surviving common
prefix, the sorted set of varying parts joined by `'_'`, and the
surviving common suffix, the empty components omitted. -/
def get_group_name (files : List (List Char)) : List Char :=
  match files with
  | [] => []
  | [f] => pyBasename f
  | _ =>
    let base_names := files.map (fun f => splitextRoot (pyBasename f))
    let vps := find_varying_parts base_names
    let file_parts := base_names.map (fun n => split_filename n vps)
    let cp := (file_parts.drop 1).foldl
      (fun cp fp => shrinkCommonPre (cp.length + 1) cp fp.1)
      ((file_parts.headD ([], [], [])).1)
    let cs := (file_parts.drop 1).foldl
      (fun cs fp => shrinkCommonSuf (cs.length + 1) cs fp.2.2)
      ((file_parts.headD ([], [], [])).2.2)
    let all_varying := (file_parts.map (fun fp => fp.2.1)).flatten
    let outParts :=
      (if cp.isEmpty then [] else [cp]) ++
        (if all_varying.isEmpty then [] else [joinU (sortStrs all_varying.dedup)]) ++
          (if cs.isEmpty then [] else [cs])
    joinU outParts

/-- The fragment pool of the fallback label: when every position of the
first name's `'_'`-fragment list varies, `get_group_name` collects, for
each name, its fragments at those positions — i.e. its first `k₀`
fragments, where `k₀` is the first name's fragment count — so fragments
of later names beyond position `k₀ - 1` are dropped into the (empty)
common suffix and lost.  The fallback label is the sorted, deduplicated
pool joined by `'_'`. -/
def fallbackFragments (names : List (List Char)) : List (List Char) :=
  (names.map (fun n =>
    (splitOnChar '_' n).take (splitOnChar '_' (names.headD [])).length)).flatten

/-! ## Concrete inputs used by the theorems below -/

/-- A well-formed 10-sample count file whose tail window is `[9, 11]`
(tail mean 10, tail standard deviation 1). -/
def fileA : List String :=
  ["f 1 c 1", "f 2 c 1", "f 3 c 1", "f 4 c 1", "f 5 c 1",
   "f 6 c 1", "f 7 c 1", "f 8 c 1", "f 9 c 9", "f 10 c 11"]

/-- A well-formed 10-sample count file whose tail window is `[17, 23]`
(tail mean 20, tail standard deviation 3). -/
def fileB : List String :=
  ["g 1 c 1", "g 2 c 1", "g 3 c 1", "g 4 c 1", "g 5 c 1",
   "g 6 c 1", "g 7 c 1", "g 8 c 1", "g 9 c 17", "g 10 c 23"]

/-- A well-formed file with only 4 samples. -/
def fileFour : List String :=
  ["f 1 c 1", "f 2 c 2", "f 3 c 3", "f 4 c 4"]

/-- Five well-formed whitespace-dialect lines. -/
def fileWs : List String :=
  ["t 1 c 7", "t 2 c 8", "t 3 c 9", "t 4 c 10", "t 5 c 11"]

/-- Five well-formed semicolon-dialect lines (`key: value; key: value`). -/
def fileSemi : List String :=
  ["Frame: 1; Count: 9", "Frame: 2; Count: 9", "Frame: 3; Count: 9",
   "Frame: 4; Count: 9", "Frame: 5; Count: 10"]

/-- `fileWs` with one malformed line (y-token `ab` strips to the empty
string) inserted in the middle. -/
def fileMixed : List String :=
  ["t 1 c 7", "t 2 c 8", "t 2.5 c ab", "t 3 c 9", "t 4 c 10", "t 5 c 11"]

/-- A file whose second line's x-token contains stray letters:
`12ab3` strips to `123`. -/
def fileStray : List String :=
  ["t 12ab3 c 7", "t 2 c 8", "t 3 c 9", "t 4 c 10", "t 5 c 11"]

/-- A 5-sample count file with tail window `[10]`. -/
def fileLow : List String :=
  ["t 1 c 3", "t 2 c 3", "t 3 c 3", "t 4 c 3", "t 5 c 10"]

/-- A 5-sample count file with tail window `[50]`. -/
def fileHigh : List String :=
  ["t 1 c 3", "t 2 c 3", "t 3 c 3", "t 4 c 3", "t 5 c 50"]

/-- A group of two files whose tail means are 10 and 20 and tail standard
deviations are 1 and 3. -/
def Gex : List (List FileRec) := [[("a.txt", fileA), ("b.txt", fileB)]]

/-- The parse result of `fileA`. -/
def resA : ReadResult := ⟨[1,2,3,4,5,6,7,8,9,10], [1,1,1,1,1,1,1,1,9,11], false⟩

/-- The parse result of `fileB`. -/
def resB : ReadResult := ⟨[1,2,3,4,5,6,7,8,9,10], [1,1,1,1,1,1,1,1,17,23], false⟩

/-- A single group of two valid count files whose concatenated tail
samples are `[10, 50]` (so the global minimum is 10 < 20). -/
def G9 : List (List FileRec) := [[("low.txt", fileLow), ("high.txt", fileHigh)]]

/-- Four single-file groups, all valid: four violin traces. -/
def G4 : List (List FileRec) :=
  [[("f1.txt", fileWs)], [("f2.txt", fileA)], [("f3.txt", fileLow)], [("f4.txt", fileHigh)]]

/-! ## Helper lemmas -/

/-- `foldlM` over `Except` distributes over list append. -/
lemma foldlM_append_except {α β ε : Type} (f : β → α → Except ε β) :
    ∀ (l₁ l₂ : List α) (b : β),
      List.foldlM f b (l₁ ++ l₂) =
        (List.foldlM f b l₁).bind (fun c => List.foldlM f c l₂) := by
  intro l₁
  induction l₁ with
  | nil =>
    intro l₂ b
    rfl
  | cons a t ih =>
    intro l₂ b
    simp only [List.cons_append, List.foldlM_cons]
    cases f b a with
    | error e => rfl
    | ok c => simpa using ih l₂ c

/-- `round20 n ≤ n`: the 20% tail window never exceeds the series. -/
lemma round20_le (n : ℕ) : round20 n ≤ n := by
  have h : (2 * n + 5) / 10 < n + 1 :=
    Nat.div_lt_of_lt_mul (by omega)
  simpa [round20] using Nat.lt_succ_iff.mp h

lemma digit_pred_dot (c : Char) (h : c.isDigit = true) : (c != '.') = true := by
  by_cases hc : c = '.'
  · subst hc; simp at h
  · simpa using hc

lemma digit_not_dash (c : Char) (h : c.isDigit = true) : c ≠ '-' := by
  intro hc; subst hc; simp at h

lemma takeWhile_all {p : Char → Bool} : ∀ l : List Char, l.all p = true → l.takeWhile p = l := by
  intro l
  induction l with
  | nil => intro; rfl
  | cons c t ih =>
    intro h
    simp only [List.all_cons, Bool.and_eq_true] at h
    simp [List.takeWhile_cons, h.1, ih h.2]

lemma dropWhile_all {p : Char → Bool} : ∀ l : List Char, l.all p = true → l.dropWhile p = [] := by
  intro l
  induction l with
  | nil => intro; rfl
  | cons c t ih =>
    intro h
    simp only [List.all_cons, Bool.and_eq_true] at h
    simp [List.dropWhile_cons, h.1, ih h.2]

lemma span_digits (d : List Char) (h : allDigits d = true) : d.span (· != '.') = (d, []) := by
  have hall : d.all (· != '.') = true := by
    simp only [allDigits] at h
    simp only [List.all_eq_true] at h ⊢
    exact fun c hc => digit_pred_dot c (h c hc)
  rw [List.span_eq_take_drop, takeWhile_all d hall, dropWhile_all d hall]

lemma parseUnsigned_digits (d : List Char) (hne : d ≠ []) (h : allDigits d = true) :
    parseUnsigned d = some (natOfDigits d : ℚ) := by
  simp only [parseUnsigned, span_digits d h]
  simp [List.isEmpty_iff, hne, h]

lemma parsePyFloat_digits (d : List Char) (hne : d ≠ []) (h : allDigits d = true) :
    parsePyFloat d = some (natOfDigits d : ℚ) := by
  rcases d with _ | ⟨c, t⟩
  · exact absurd rfl hne
  · have hc : c.isDigit = true := by
      simp only [allDigits, List.all_cons, Bool.and_eq_true] at h
      exact h.1
    have hcd := digit_not_dash c hc
    rw [show parsePyFloat (c :: t) = parseUnsigned (c :: t) by
      unfold parsePyFloat
      split
      · rename_i heq
        injection heq with h1 h2
        exact absurd h1.symm (fun hh => hcd hh.symm)
      · rfl]
    exact parseUnsigned_digits _ hne h

lemma stripToNumeric_digits (d : List Char) (h : allDigits d = true) :
    stripToNumeric d = d := by
  simp only [stripToNumeric]
  apply List.filter_eq_self.mpr
  intro c hc
  simp only [allDigits, List.all_eq_true] at h
  simp [h c hc]

lemma stripToNumeric_digits_semi (d : List Char) (h : allDigits d = true) :
    stripToNumeric (d ++ [';']) = d := by
  have h1 : stripToNumeric d = d := stripToNumeric_digits d h
  simp only [stripToNumeric, List.filter_append] at h1 ⊢
  rw [h1, show List.filter (fun c => c.isDigit || c == '.' || c == '-') [';'] = [] from by decide,
    List.append_nil]

lemma pyBasename_no_slash (l : List Char) (h : ('/' : Char) ∉ l) : pyBasename l = l := by
  have hall : l.reverse.all (· != '/') = true := by
    simp only [List.all_eq_true, List.mem_reverse, bne_iff_ne, ne_eq]
    exact fun c hc hcc => h (hcc ▸ hc)
  rw [pyBasename, takeWhile_all _ hall, List.reverse_reverse]

lemma splitextRoot_no_dot (l : List Char) (h : ('.' : Char) ∉ l) : splitextRoot l = l := by
  have hall : l.reverse.all (· != '.') = true := by
    simp only [List.all_eq_true, List.mem_reverse, bne_iff_ne, ne_eq]
    exact fun c hc hcc => h (hcc ▸ hc)
  simp only [splitextRoot, List.span_eq_take_drop, takeWhile_all _ hall, dropWhile_all _ hall]

lemma splitOnChar_no_sep (sep : Char) : ∀ l : List Char, sep ∉ l → splitOnChar sep l = [l] := by
  intro l
  induction l with
  | nil => intro; rfl
  | cons c t ih =>
    intro h
    have hc : ¬ c = sep := fun hh => h (hh ▸ List.mem_cons_self c t)
    have ht : sep ∉ t := fun hh => h (List.mem_cons_of_mem c hh)
    simp [splitOnChar, hc, ih ht]

lemma flatten_map_singleton {α : Type} : ∀ l : List α, (l.map (fun x => [x])).flatten = l := by
  intro l
  induction l with
  | nil => rfl
  | cons a t ih => simp [ih]

lemma insertSorted_length (x : List Char) : ∀ l, (insertSorted x l).length = l.length + 1 := by
  intro l
  induction l with
  | nil => rfl
  | cons y ys ih =>
    rw [insertSorted]
    by_cases h : lexLe x y
    · simp [h]
    · simp [h, ih]

lemma sortStrs_length (l : List (List Char)) : (sortStrs l).length = l.length := by
  induction l with
  | nil => rfl
  | cons a t ih =>
    rw [sortStrs] at ih ⊢
    simp [List.foldr_cons, insertSorted_length, ih]

lemma joinU_two_ne_nil : ∀ (x y : List Char) (t : List (List Char)), joinU (x :: y :: t) ≠ [] := by
  intro x y t
  show x ++ '_' :: joinU (y :: t) ≠ []
  rcases x with _ | ⟨c, cs⟩ <;> simp

lemma two_le_length_of_mem {α : Type} (l : List α) (a b : α)
    (ha : a ∈ l) (hb : b ∈ l) (hab : a ≠ b) : 2 ≤ l.length := by
  rcases l with _ | ⟨x, _ | ⟨y, t⟩⟩
  · simp at ha
  · simp at ha hb
    exact absurd (ha.trans hb.symm) hab
  · simp

lemma foldl_shrinkPre_nil (l : List (List Char × List (List Char) × List Char)) :
    l.foldl (fun cp fp => shrinkCommonPre (cp.length + 1) cp fp.1) [] = [] := by
  induction l with
  | nil => rfl
  | cons a t ih => simpa [shrinkCommonPre] using ih

lemma foldl_shrinkSuf_nil (l : List (List Char × List (List Char) × List Char)) :
    l.foldl (fun cs fp => shrinkCommonSuf (cs.length + 1) cs fp.2.2) [] = [] := by
  induction l with
  | nil => rfl
  | cons a t ih => simpa [shrinkCommonSuf] using ih

lemma foldl_max_init (t : List ℚ) : ∀ a : ℚ, a ≤ t.foldl max a := by
  induction t with
  | nil => intro a; exact le_refl a
  | cons b t ih =>
    intro a
    calc a ≤ max a b := le_max_left a b
    _ ≤ t.foldl max (max a b) := ih (max a b)

lemma foldl_max_mem_le (t : List ℚ) : ∀ (a v : ℚ), v ∈ t → v ≤ t.foldl max a := by
  induction t with
  | nil => intro a v hv; simp at hv
  | cons b t ih =>
    intro a v hv
    rcases List.mem_cons.mp hv with h | h
    · subst h
      calc v ≤ max a v := le_max_right a v
      _ ≤ t.foldl max (max a v) := foldl_max_init t _
    · exact ih (max a b) v h

lemma foldl_max_mem (t : List ℚ) : ∀ a : ℚ, t.foldl max a = a ∨ t.foldl max a ∈ t := by
  induction t with
  | nil => intro a; exact Or.inl rfl
  | cons b t ih =>
    intro a
    rcases ih (max a b) with h | h
    · rcases max_choice a b with hm | hm
      · exact Or.inl (by simpa [hm] using h)
      · exact Or.inr (by simp [List.foldl_cons]; rw [h, hm]; exact Or.inl rfl)
    · exact Or.inr (List.mem_cons.mpr (Or.inr h))

lemma foldl_min_init (t : List ℚ) : ∀ a : ℚ, t.foldl min a ≤ a := by
  induction t with
  | nil => intro a; exact le_refl a
  | cons b t ih =>
    intro a
    calc t.foldl min (min a b) ≤ min a b := ih (min a b)
    _ ≤ a := min_le_left a b

lemma foldl_min_mem_le (t : List ℚ) : ∀ (a v : ℚ), v ∈ t → t.foldl min a ≤ v := by
  induction t with
  | nil => intro a v hv; simp at hv
  | cons b t ih =>
    intro a v hv
    rcases List.mem_cons.mp hv with h | h
    · subst h
      calc t.foldl min (min a v) ≤ min a v := foldl_min_init t _
      _ ≤ v := min_le_right a v
    · exact ih (min a b) v h

lemma foldl_min_mem (t : List ℚ) : ∀ a : ℚ, t.foldl min a = a ∨ t.foldl min a ∈ t := by
  induction t with
  | nil => intro a; exact Or.inl rfl
  | cons b t ih =>
    intro a
    rcases ih (min a b) with h | h
    · rcases min_choice a b with hm | hm
      · exact Or.inl (by simpa [hm] using h)
      · exact Or.inr (by simp [List.foldl_cons]; rw [h, hm]; exact Or.inl rfl)
    · exact Or.inr (List.mem_cons.mpr (Or.inr h))

lemma listMax_spec (l : List ℚ) (h : l ≠ []) :
    listMax l ∈ l ∧ ∀ v ∈ l, v ≤ listMax l := by
  rcases l with _ | ⟨a, t⟩
  · exact absurd rfl h
  · constructor
    · rcases foldl_max_mem t a with h1 | h1
      · rw [listMax, h1]; exact List.mem_cons_self a t
      · rw [listMax]; exact List.mem_cons.mpr (Or.inr h1)
    · intro v hv
      rcases List.mem_cons.mp hv with h1 | h1
      · subst h1; exact foldl_max_init t v
      · exact foldl_max_mem_le t a v h1

lemma listMin_spec (l : List ℚ) (h : l ≠ []) :
    listMin l ∈ l ∧ ∀ v ∈ l, listMin l ≤ v := by
  rcases l with _ | ⟨a, t⟩
  · exact absurd rfl h
  · constructor
    · rcases foldl_min_mem t a with h1 | h1
      · rw [listMin, h1]; exact List.mem_cons_self a t
      · rw [listMin]; exact List.mem_cons.mpr (Or.inr h1)
    · intro v hv
      rcases List.mem_cons.mp hv with h1 | h1
      · subst h1; exact foldl_min_init t v
      · exact foldl_min_mem_le t a v h1


lemma splitOnChar_shape (sep : Char) :
    ∀ l : List Char, ∃ h t, splitOnChar sep l = h :: t ∧ h <+: l ∧
      (h = [] → l = [] ∨ ∃ r, l = sep :: r) := by
  intro l
  induction l with
  | nil => exact ⟨[], [], rfl, List.nil_prefix, fun _ => Or.inl rfl⟩
  | cons c rest ih =>
    by_cases hc : c = sep
    · subst hc
      exact ⟨[], splitOnChar c rest, by simp [splitOnChar], List.nil_prefix,
        fun _ => Or.inr ⟨rest, rfl⟩⟩
    · rcases ih with ⟨h', t', hsp, hpre, _⟩
      refine ⟨c :: h', t', ?_, List.cons_prefix_cons.mpr ⟨rfl, hpre⟩, by simp⟩
      simp [splitOnChar, hc, hsp]

lemma splitOnChar_mem_infix (sep : Char) :
    ∀ (l part : List Char), part ∈ splitOnChar sep l → part <:+: l := by
  intro l
  induction l with
  | nil =>
    intro part hp
    simp [splitOnChar] at hp
    subst hp
    exact List.nil_infix
  | cons c rest ih =>
    intro part hp
    by_cases hc : c = sep
    · subst hc
      simp only [splitOnChar, if_pos rfl] at hp
      rcases List.mem_cons.mp hp with h | h
      · subst h; exact List.nil_infix
      · exact List.infix_cons (ih part h)
    · rcases hsp : splitOnChar sep rest with _ | ⟨h', t'⟩
      · simp only [splitOnChar, if_neg hc, hsp] at hp
        simp at hp
        subst hp
        exact (List.cons_prefix_cons.mpr ⟨rfl, List.nil_prefix⟩).isInfix
      · simp only [splitOnChar, if_neg hc, hsp] at hp
        rcases List.mem_cons.mp hp with h | h
        · subst h
          rcases splitOnChar_shape sep rest with ⟨h'', t'', hsp2, hpre, _⟩
          rw [hsp] at hsp2
          injection hsp2 with e1 _
          exact (List.cons_prefix_cons.mpr ⟨rfl, e1 ▸ hpre⟩).isInfix
        · exact List.infix_cons (ih part (by rw [hsp]; exact List.mem_cons_of_mem h' h))

lemma splitOnChar_two_mem (sep : Char) (l : List Char)
    (h : 2 ≤ (splitOnChar sep l).length) : sep ∈ l := by
  by_contra hn
  rw [splitOnChar_no_sep sep l hn] at h
  simp at h

lemma singleton_infix_of_mem {c : Char} {l : List Char} (h : c ∈ l) : [c] <:+: l := by
  rcases List.append_of_mem h with ⟨s, t, rfl⟩
  exact ⟨s, t, by simp⟩

lemma filterMap_getElem_range {α : Type} :
    ∀ (k : ℕ) (l : List α), (List.range k).filterMap (fun i => l[i]?) = l.take k := by
  intro k
  induction k with
  | zero => intro l; rfl
  | succ m ih =>
    intro l
    rw [List.range_succ, List.filterMap_append, ih, List.take_succ]
    congr 1

lemma range_getLastD (m : ℕ) : (List.range (m + 1)).getLastD 0 = m := by
  rw [List.range_succ, List.getLastD_eq_getLast?, List.getLast?_concat]
  rfl

lemma fvp_range (names : List (List Char)) (h2 : 2 ≤ names.length)
    (hok : ∀ n ∈ names, n ≠ [] ∧ ('/' : Char) ∉ n ∧ ('.' : Char) ∉ n)
    (hsub : ¬ ∃ s : List Char, s ≠ [] ∧ ∀ n ∈ names, s <:+: n) :
    find_varying_parts names =
      List.range (splitOnChar '_' (names.headD [])).length := by
  rcases names with _ | ⟨n1, rest⟩
  · simp at h2
  · have hlen : ¬((n1 :: rest).length ≤ 1) := by
      simp only [List.length_cons] at h2 ⊢
      omega
    have hmap : (n1 :: rest).map (fun f => splitOnChar '_' (splitextRoot (pyBasename f))) =
        (n1 :: rest).map (splitOnChar '_') := by
      apply List.map_congr_left
      intro a ha
      rw [pyBasename_no_slash a (hok a ha).2.1, splitextRoot_no_dot a (hok a ha).2.2]
    simp only [find_varying_parts, if_neg hlen, hmap, List.headD_cons]
    simp only [List.map_cons, List.headD_cons]
    apply List.filter_eq_self.mpr
    intro i hi
    rw [List.mem_range] at hi
    rw [Bool.not_eq_true']
    rw [Bool.eq_false_iff]
    intro htrue
    -- htrue : allEqB of the per-name i-th fragments
    have hv1 : (splitOnChar '_' n1)[i]? = some ((splitOnChar '_' n1).get ⟨i, hi⟩) :=
      List.getElem?_eq_getElem hi
    have hall : ∀ n ∈ n1 :: rest,
        (splitOnChar '_' n)[i]? = (splitOnChar '_' n1)[i]? := by
      simp only [allEqB, List.map_cons, List.map_map] at htrue
      rw [List.all_eq_true] at htrue
      intro n hn
      rcases List.mem_cons.mp hn with h | h
      · rw [h]
      · have := htrue ((splitOnChar '_' n)[i]?)
          (List.mem_map_of_mem _ h)
        exact of_decide_eq_true this
    rcases Nat.eq_zero_or_pos i with hi0 | hipos
    · -- i = 0: the common first fragment is either a common substring or
      -- empty, in which case every name starts with the separator.
      subst hi0
      set p := (splitOnChar '_' n1).get ⟨0, hi⟩ with hp
      by_cases hpn : p = []
      · refine hsub ⟨['_'], by simp, fun n hn => singleton_infix_of_mem ?_⟩
        have hfn : (splitOnChar '_' n)[(0:ℕ)]? = some p := by
          rw [hall n hn, hv1]
        rcases splitOnChar_shape '_' n with ⟨h, t, hsp, _, hemp⟩
        rw [hsp] at hfn
        simp only [List.getElem?_cons_zero, Option.some.injEq] at hfn
        rcases hemp (hfn.trans hpn) with hnil | ⟨r, hr⟩
        · exact absurd hnil (hok n hn).1
        · rw [hr]; exact List.mem_cons_self _ _
      · refine hsub ⟨p, hpn, fun n hn => ?_⟩
        have hfn : (splitOnChar '_' n)[(0:ℕ)]? = some p := by
          rw [hall n hn, hv1]
        exact splitOnChar_mem_infix '_' n p (List.getElem?_mem hfn)
    · -- i ≥ 1: every name then has at least two fragments, so every name
      -- contains the separator: a common substring.
      refine hsub ⟨['_'], by simp, fun n hn => singleton_infix_of_mem ?_⟩
      have hfn : (splitOnChar '_' n)[i]? = some ((splitOnChar '_' n1).get ⟨i, hi⟩) := by
        rw [hall n hn, hv1]
      have hilt : i < (splitOnChar '_' n).length := by
        rcases List.getElem?_eq_some_iff.mp hfn with ⟨hh, _⟩
        exact hh
      exact splitOnChar_two_mem '_' n (by omega)

lemma sf_range (n : List Char) (hs : ('/' : Char) ∉ n) (hd : ('.' : Char) ∉ n) (m : ℕ) :
    split_filename n (List.range (m + 1)) =
      ([], (splitOnChar '_' n).take (m + 1), joinU ((splitOnChar '_' n).drop (m + 1))) := by
  rw [List.range_succ_eq_map]
  simp only [split_filename, pyBasename_no_slash n hs, splitextRoot_no_dot n hd]
  rw [← List.range_succ_eq_map]
  rw [filterMap_getElem_range, range_getLastD]
  rfl

lemma get_group_name_no_common (names : List (List Char)) (h2 : 2 ≤ names.length)
    (hok : ∀ n ∈ names, n ≠ [] ∧ ('/' : Char) ∉ n ∧ ('.' : Char) ∉ n)
    (hsub : ¬ ∃ s : List Char, s ≠ [] ∧ ∀ n ∈ names, s <:+: n) :
    get_group_name names = joinU (sortStrs (fallbackFragments names).dedup) := by
  rcases names with _ | ⟨n1, _ | ⟨n2, t⟩⟩
  · simp at h2
  · simp at h2
  · rcases splitOnChar_shape '_' n1 with ⟨p1h, p1t, hsp1, _, _⟩
    have hk : (splitOnChar '_' n1).length = p1t.length + 1 := by rw [hsp1]; rfl
    have hvps : find_varying_parts (n1 :: n2 :: t) = List.range (p1t.length + 1) := by
      have h := fvp_range (n1 :: n2 :: t) (by simp) hok hsub
      rw [List.headD_cons, hk] at h
      exact h
    have hmapbase : (n1 :: n2 :: t).map (fun f => splitextRoot (pyBasename f)) =
        n1 :: n2 :: t := by
      have h : (n1 :: n2 :: t).map (fun f => splitextRoot (pyBasename f)) =
          (n1 :: n2 :: t).map id := by
        apply List.map_congr_left
        intro a ha
        rw [pyBasename_no_slash a (hok a ha).2.1, splitextRoot_no_dot a (hok a ha).2.2, id]
      rw [h, List.map_id]
    have hfp : (n1 :: n2 :: t).map (fun n => split_filename n (List.range (p1t.length + 1))) =
        (n1 :: n2 :: t).map (fun n => (([] : List Char),
          (splitOnChar '_' n).take (p1t.length + 1),
          joinU ((splitOnChar '_' n).drop (p1t.length + 1)))) := by
      apply List.map_congr_left
      intro a ha
      exact sf_range a (hok a ha).2.1 (hok a ha).2.2 p1t.length
    simp only [get_group_name, hmapbase, hvps, hfp]
    have hhead : ((n1 :: n2 :: t).map (fun n => (([] : List Char),
        (splitOnChar '_' n).take (p1t.length + 1),
        joinU ((splitOnChar '_' n).drop (p1t.length + 1))))).headD ([], [], []) =
        (([] : List Char), (splitOnChar '_' n1).take (p1t.length + 1),
          joinU ((splitOnChar '_' n1).drop (p1t.length + 1))) := by
      simp
    have hdrop : ((n1 :: n2 :: t).map (fun n => (([] : List Char),
        (splitOnChar '_' n).take (p1t.length + 1),
        joinU ((splitOnChar '_' n).drop (p1t.length + 1))))).drop 1 =
        ((n2 :: t).map (fun n => (([] : List Char),
          (splitOnChar '_' n).take (p1t.length + 1),
          joinU ((splitOnChar '_' n).drop (p1t.length + 1))))) := by
      simp
    rw [hhead, hdrop]
    have hcs0 : joinU ((splitOnChar '_' n1).drop (p1t.length + 1)) = [] := by
      rw [← hk, List.drop_length]
      rfl
    rw [hcs0]
    rw [foldl_shrinkPre_nil, foldl_shrinkSuf_nil]
    have hav : (((n1 :: n2 :: t).map (fun n => (([] : List Char),
        (splitOnChar '_' n).take (p1t.length + 1),
        joinU ((splitOnChar '_' n).drop (p1t.length + 1))))).map (fun fp => fp.2.1)).flatten =
        fallbackFragments (n1 :: n2 :: t) := by
      rw [List.map_map]
      rw [show ((fun (fp : List Char × List (List Char) × List Char) => fp.2.1) ∘
          (fun n => (([] : List Char), (splitOnChar '_' n).take (p1t.length + 1),
            joinU ((splitOnChar '_' n).drop (p1t.length + 1))))) =
          fun n => (splitOnChar '_' n).take (p1t.length + 1) from rfl]
      rw [fallbackFragments, List.headD_cons, hk]
    rw [hav]
    have hF : (fallbackFragments (n1 :: n2 :: t)).isEmpty = false := by
      rw [fallbackFragments, List.headD_cons, hk]
      simp only [List.map_cons, List.flatten_cons]
      rw [hsp1]
      rfl
    simp only [List.isEmpty_nil, if_true, hF, Bool.false_eq_true, if_false]
    rfl

lemma mem_fallbackFragments_head (names : List (List Char)) (n : List Char) (hn : n ∈ names)
    (hne : names ≠ []) :
    ∃ h tl, splitOnChar '_' n = h :: tl ∧ h ∈ fallbackFragments names := by
  rcases names with _ | ⟨n1, rest⟩
  · exact absurd rfl hne
  · rcases splitOnChar_shape '_' n1 with ⟨h1, t1, hsp1, _, _⟩
    rcases splitOnChar_shape '_' n with ⟨h, tl, hsp, _, _⟩
    refine ⟨h, tl, hsp, ?_⟩
    rw [fallbackFragments, List.headD_cons]
    apply List.mem_flatten.mpr
    refine ⟨(splitOnChar '_' n).take (splitOnChar '_' n1).length,
      List.mem_map_of_mem _ hn, ?_⟩
    rw [hsp, hsp1]
    simp [List.take_succ_cons]

lemma get_group_name_no_common_ne (names : List (List Char)) (h2 : 2 ≤ names.length)
    (hok : ∀ n ∈ names, n ≠ [] ∧ ('/' : Char) ∉ n ∧ ('.' : Char) ∉ n)
    (hsub : ¬ ∃ s : List Char, s ≠ [] ∧ ∀ n ∈ names, s <:+: n) :
    get_group_name names ≠ [] := by
  rw [get_group_name_no_common names h2 hok hsub]
  have hne : names ≠ [] := by
    rcases names with _ | _
    · simp at h2
    · simp
  have hn1 : names.headD [] ∈ names := by
    rcases names with _ | ⟨a, r⟩
    · simp at h2
    · exact List.mem_cons_self a r
  rcases hD : (fallbackFragments names).dedup with _ | ⟨x, _ | ⟨y, ys⟩⟩
  · rw [List.dedup_eq_nil] at hD
    rcases mem_fallbackFragments_head names (names.headD []) hn1 hne with ⟨h, tl, _, hmem⟩
    rw [hD] at hmem
    simp at hmem
  · by_cases hx : x = []
    · exfalso
      apply hsub
      refine ⟨['_'], by simp, fun n hn => singleton_infix_of_mem ?_⟩
      rcases mem_fallbackFragments_head names n hn hne with ⟨h, tl, hsp, hmem⟩
      have hhx : h = x := by
        have := List.mem_dedup.mpr hmem
        rw [hD] at this
        simpa using this
      rcases splitOnChar_shape '_' n with ⟨h', tl', hsp', _, hemp'⟩
      rw [hsp] at hsp'
      injection hsp' with e1 _
      rcases hemp' (by rw [← e1, hhx, hx]) with hnil | ⟨r, hr⟩
      · exact absurd hnil (hok n hn).1
      · rw [hr]; exact List.mem_cons_self _ _
    · rw [show sortStrs [x] = [x] from rfl]
      exact hx
  · have hlen2 : 2 ≤ (sortStrs (x :: y :: ys)).length := by
      rw [sortStrs_length]
      simp
    rcases hs : sortStrs (x :: y :: ys) with _ | ⟨a, _ | ⟨b, s⟩⟩
    · rw [hs] at hlen2; simp at hlen2
    · rw [hs] at hlen2; simp at hlen2
    · exact joinU_two_ne_nil a b s

/-! ## Claim theorems -/

/-- C1: For every group whose files parse successfully, the combined
annotation reports the arithmetic mean of the per-file tail means and the
arithmetic mean of the per-file tail standard deviations (average of
per-file averages), not a pooled statistic over the concatenated tail
samples; in particular for `Gex` (two files with tail means 10, 20 and
tail standard deviations 1, 3) the annotation reports 15 and 2, while the
pooled standard deviation of the concatenated tails `[9,11,17,23]` is
`√30 ≠ 2`. -/
theorem C1_mean_of_means :
    (∀ groups : List (List FileRec), isCombined groups = true →
        (combinedAvgs groups).isEmpty = false → (combinedStds groups).isEmpty = false →
        combinedStatsNote groups =
          some (mean (combinedAvgs groups), rmean (combinedStds groups))) ∧
    combinedAvgs Gex = [10, 20] ∧
    combinedStatsNote Gex = some (15, 2) ∧
    violinTraces Gex = [[9, 11, 17, 23]] ∧
    stdOf [9, 11, 17, 23] ≠ 2 := by
  have hv : validResults [("a.txt", fileA), ("b.txt", fileB)] = [resA, resB] := by decide
  have htA : y_lastOf resA = [9, 11] := by decide
  have htB : y_lastOf resB = [17, 23] := by decide
  have havgA : file_avg resA = 10 := by
    rw [file_avg, htA, mean]; norm_num
  have havgB : file_avg resB = 20 := by
    rw [file_avg, htB, mean]; norm_num
  have hvarA : file_var resA = 1 := by
    rw [file_var, htA, pvariance, mean]; norm_num
  have hvarB : file_var resB = 9 := by
    rw [file_var, htB, pvariance, mean]; norm_num
  have hstdA : file_std resA = 1 := by
    rw [file_std, hvarA]; norm_num [Real.sqrt_one]
  have hstdB : file_std resB = 3 := by
    rw [file_std, hvarB]
    rw [show ((9 : ℚ) : ℝ) = 3 ^ 2 by norm_num, Real.sqrt_sq (by norm_num : (0:ℝ) ≤ 3)]
  have havgs : combinedAvgs Gex = [10, 20] := by
    simp [combinedAvgs, Gex, hv, havgA, havgB]
  have hstds : combinedStds Gex = [1, 3] := by
    simp [combinedStds, Gex, hv, hstdA, hstdB]
  refine ⟨?_, havgs, ?_, by decide, ?_⟩
  · intro groups h1 h2 h3
    simp [combinedStatsNote, h1, h2, h3]
  · rw [combinedStatsNote]
    simp only [havgs, hstds, show isCombined Gex = true from by decide]
    norm_num [mean, rmean]
  · have hp : pvariance [9, 11, 17, 23] = 30 := by
      rw [pvariance, mean]; norm_num
    rw [stdOf, hp]
    intro h
    have h2 : Real.sqrt ((30 : ℚ) : ℝ) ^ 2 = ((30 : ℚ) : ℝ) := Real.sq_sqrt (by norm_num)
    rw [h] at h2
    norm_num at h2

/-- C1 witness: the general annotation equation of `C1_mean_of_means`
instantiated at the concrete group list `Gex`. -/
theorem C1_mean_of_means_witness :
    combinedStatsNote Gex = some (mean (combinedAvgs Gex), rmean (combinedStds Gex)) :=
  C1_mean_of_means.1 Gex (by decide) (by decide) (by decide)

/-- C2: For every successfully parsed series, the series has at least 5
samples, the tail window is exactly the last `round20 N = round(N * 0.2)`
y-values, and the reported statistics are its arithmetic mean and its
population variance (standard deviation dividing by `k`, not `k - 1`);
a well-formed 4-sample file fails with `insufficientPoints` before any
tail window is computed. -/
theorem C2_tail_window :
    (∀ (lines : List String) (r : ReadResult), read_data lines = .ok r →
        5 ≤ r.y.length ∧
        1 ≤ round20 r.y.length ∧
        y_lastOf r = r.y.drop (r.y.length - round20 r.y.length) ∧
        (y_lastOf r).length = round20 r.y.length ∧
        file_avg r = mean (y_lastOf r) ∧
        file_var r = pvariance (y_lastOf r)) ∧
    read_data fileFour = .error .insufficientPoints := by
  constructor
  · intro lines r h
    simp only [read_data] at h
    split at h
    · simp at h
    · split at h
      · simp at h
      · rename_i acc heq
        split at h
        · simp at h
        · split at h
          · simp at h
          · split at h
            · simp at h
            · split at h
              · simp at h
              · split at h
                · simp at h
                · rename_i hne hx0 hy0 h5 h1
                  have hr : r = ⟨acc.x, acc.y, acc.isDistance⟩ := by
                    injection h with h'
                    exact h'.symm
                  subst hr
                  dsimp only
                  have hk := round20_le acc.y.length
                  refine ⟨by omega, by omega, rfl, ?_, rfl, rfl⟩
                  simp [y_lastOf, List.length_drop]
                  omega
  · decide

/-- C2 witness: the tail-window facts of `C2_tail_window` instantiated at
the concrete 10-sample file `fileA`. -/
theorem C2_tail_window_witness :
    (y_lastOf resA).length = round20 resA.y.length :=
  (C2_tail_window.1 fileA resA (by decide)).2.2.2.1

/-- C3: With four violin traces (groups that have at least one valid
file), exactly 3 comparisons are produced, one per consecutive pair
(0,1), (1,2), (2,3) and no others; in general the number of comparisons
is one less than the number of traces (and none are produced below two
traces), the trace count is the number of groups with a valid file, and a
comparison is significant exactly when its p-value is strictly below
0.05, so p = 0.05 is not significant while p = 0.049 is. -/
theorem C3_adjacent_welch :
    (∀ (groups : List (List FileRec)),
        (violinTraces groups).length =
          (groups.filter (fun g => !(validResults g).isEmpty)).length) ∧
    (∀ (pval : List ℚ → List ℚ → ℝ) (groups : List (List FileRec)),
        2 ≤ (violinTraces groups).length →
        (comparisons pval groups).length = (violinTraces groups).length - 1) ∧
    (∀ (pval : List ℚ → List ℚ → ℝ) (groups : List (List FileRec)),
        (violinTraces groups).length = 4 →
        (comparisons pval groups).map (fun c => (c.lo, c.hi)) = [(0, 1), (1, 2), (2, 3)]) ∧
    (∀ (pval : List ℚ → List ℚ → ℝ) (groups : List (List FileRec)),
        (violinTraces groups).length ≤ 1 → comparisons pval groups = []) ∧
    (∀ c : Comparison, c.p = 0.05 → ¬ significant c ∧ colorOf c = "rgba(0,0,0,0.7)") ∧
    (∀ c : Comparison, c.p = 0.049 → significant c ∧ colorOf c = "rgba(255,0,0,0.7)") := by
  refine ⟨?_, ?_, ?_, ?_, ?_, ?_⟩
  · intro groups
    induction groups with
    | nil => rfl
    | cons g gs ih =>
      rcases hv : validResults g with _ | ⟨r, rs⟩
      · have h1 : violinTraces (g :: gs) = violinTraces gs := by
          simp [violinTraces, List.filterMap_cons, hv]
        have h2 : (g :: gs).filter (fun g => !(validResults g).isEmpty) =
            gs.filter (fun g => !(validResults g).isEmpty) := by
          simp [List.filter_cons, hv]
        rw [h1, h2, ih]
      · have h1 : violinTraces (g :: gs) =
            ((validResults g).map y_lastOf).flatten :: violinTraces gs := by
          simp [violinTraces, List.filterMap_cons, hv]
        have h2 : (g :: gs).filter (fun g => !(validResults g).isEmpty) =
            g :: gs.filter (fun g => !(validResults g).isEmpty) := by
          simp [List.filter_cons, hv]
        rw [h1, h2]
        simp [ih]
  · intro pval groups h
    rw [comparisons, if_pos (by omega)]
    simp
  · intro pval groups h
    rw [comparisons, if_pos (by omega), h]
    simp [List.map_map, List.range_succ]
  · intro pval groups h
    rw [comparisons, if_neg (by omega)]
  · intro c h
    refine ⟨by simp [significant, h], ?_⟩
    rw [colorOf, h, if_neg (by norm_num)]
  · intro c h
    refine ⟨by simp only [significant, h]; norm_num, ?_⟩
    rw [colorOf, h, if_pos (by norm_num)]

/-- C3 witness: the adjacent-pair shape of `C3_adjacent_welch`
instantiated at the four-group list `G4` (with a constant p-value
function). -/
theorem C3_adjacent_welch_witness :
    (comparisons (fun _ _ => (0 : ℝ)) G4).map (fun c => (c.lo, c.hi)) =
      [(0, 1), (1, 2), (2, 3)] :=
  C3_adjacent_welch.2.2.1 (fun _ _ => (0 : ℝ)) G4 (by decide)

/-- C4: Both input dialects yield a series: a semicolon-delimited
`key: value; key: value` file and a whitespace-tokenized 4-column file
both parse (concretely `fileSemi` and `fileA`), and at token level any
line whose shape matches either dialect contributes its two numeric
fields to the series — dialect (a) through the same ≥4-token path after
the stray `';'` is stripped from the numeric token. -/
theorem C4_both_dialects :
    read_data fileSemi = .ok ⟨[1, 2, 3, 4, 5], [9, 9, 9, 9, 10], false⟩ ∧
    read_data fileA =
      .ok ⟨[1, 2, 3, 4, 5, 6, 7, 8, 9, 10], [1, 1, 1, 1, 1, 1, 1, 1, 9, 11], false⟩ ∧
    (∀ (acc : LineAcc) (k1 k2 d1 d2 : List Char),
        d1 ≠ [] → allDigits d1 = true → d2 ≠ [] → allDigits d2 = true →
        processParts acc [k1, d1 ++ [';'], k2, d2] =
          .ok ⟨acc.x ++ [(natOfDigits d1 : ℚ)], acc.y ++ [(natOfDigits d2 : ℚ)],
            acc.isDistance || isDistanceToken k2⟩) ∧
    (∀ (acc : LineAcc) (t0 t1 t2 t3 : List Char) (rest : List (List Char)) (xv yv : ℚ),
        parsePyFloat (stripToNumeric t1) = some xv →
        parsePyFloat (stripToNumeric t3) = some yv →
        processParts acc (t0 :: t1 :: t2 :: t3 :: rest) =
          .ok ⟨acc.x ++ [xv], acc.y ++ [yv], acc.isDistance || isDistanceToken t2⟩) := by
  refine ⟨by decide, by decide, ?_, ?_⟩
  · intro acc k1 k2 d1 d2 h1 hd1 h2 hd2
    simp only [processParts, stripToNumeric_digits_semi d1 hd1, stripToNumeric_digits d2 hd2,
      parsePyFloat_digits d1 h1 hd1, parsePyFloat_digits d2 h2 hd2]
  · intro acc t0 t1 t2 t3 rest xv yv hx hy
    simp only [processParts, hx, hy]

/-- C4 witness: the semicolon-dialect token rule of `C4_both_dialects`
instantiated at the tokens of the line `Frame: 17; Count: 42`. -/
theorem C4_both_dialects_witness :
    processParts ⟨[], [], false⟩
        ["Frame:".data, "17;".data, "Count:".data, "42".data] =
      .ok ⟨[(17 : ℚ)], [(42 : ℚ)], false⟩ := by
  have h := C4_both_dialects.2.2.1 ⟨[], [], false⟩ "Frame:".data "Count:".data
    "17".data "42".data (by decide) (by decide) (by decide) (by decide)
  simpa using h

/-- C5: A malformed numeric field on a record-shaped line fails the whole
file with `malformedLine` (fail-fast): whenever a prefix of the file
parses cleanly and the next line's numeric parse fails, `read_data`
returns the error regardless of the remaining lines; concretely
`fileMixed` (six lines, one bad) fails even though dropping its bad line
(`fileWs`) parses to a valid 5-sample series. -/
theorem C5_fail_fast :
    (∀ (pre post : List String) (badLine : String) (acc : LineAcc),
        pre.foldlM processLine ⟨[], [], false⟩ = .ok acc →
        processLine acc badLine = .error .malformedLine →
        read_data (pre ++ badLine :: post) = .error .malformedLine) ∧
    read_data fileMixed = .error .malformedLine ∧
    read_data fileWs = .ok ⟨[1, 2, 3, 4, 5], [7, 8, 9, 10, 11], false⟩ := by
  refine ⟨?_, by decide, by decide⟩
  intro pre post badLine acc h1 h2
  have hne : (pre ++ badLine :: post).isEmpty = false := by cases pre <;> rfl
  have hfold : (pre ++ badLine :: post).foldlM processLine ⟨[], [], false⟩ =
      (.error .malformedLine : Except DataError LineAcc) := by
    rw [foldlM_append_except, h1]
    show List.foldlM processLine acc (badLine :: post) = _
    simp only [List.foldlM_cons, h2]
    rfl
  simp [read_data, hne, hfold]

/-- C5 witness: the fail-fast rule of `C5_fail_fast` instantiated at the
concrete split of `fileMixed` around its malformed third line. -/
theorem C5_fail_fast_witness :
    read_data (["t 1 c 7", "t 2 c 8"] ++ "t 2.5 c ab" :: ["t 3 c 9", "t 4 c 10", "t 5 c 11"]) =
      .error .malformedLine :=
  C5_fail_fast.1 ["t 1 c 7", "t 2 c 8"] ["t 3 c 9", "t 4 c 10", "t 5 c 11"] "t 2.5 c ab"
    ⟨[1, 2], [7, 8], false⟩ (by decide) (by decide)

/-- C6 counterexample: for the names `b_a` and `cd` — which share no
common prefix and no common substring — the label deriver returns
`a_b_cd`, which is not the unmodified original names joined by a
separator in either order (`b_a_cd` or `cd_b_a`): the name `b_a` is split
at its underscore and its fragments are reordered. -/
theorem C6_fallback_counterexample :
    get_group_name ["b_a".data, "cd".data] = "a_b_cd".data ∧
    "a_b_cd".data ≠ "b_a_cd".data ∧
    "a_b_cd".data ≠ "cd_b_a".data := by
  refine ⟨by decide, by decide, by decide⟩

/-- C6 (amended): for two or more nonempty names that share no common
prefix and no nonempty common substring, the label deriver falls back to
a label built from the names' underscore-fragments: for each name, its
fragments at the first name's fragment positions (its first `k₀`
fragments, `k₀` being the first name's fragment count), deduplicated and
sorted lexicographically and joined by `'_'` — for underscore-free names
this is the original names sorted and joined — and the label is never
empty.  The fallback neither preserves the unmodified names (`b_a`,`cd`
give `a_b_cd`, see the counterexample) nor keeps fragments beyond the
first name's fragment count: `ab`,`c_d` give `ab_c`, the fragment `d`
falling into the dropped (empty) common suffix. -/
theorem C6_fallback_sorted_fragments :
    (∀ names : List (List Char),
        2 ≤ names.length →
        (∀ n ∈ names, n ≠ [] ∧ ('/' : Char) ∉ n ∧ ('.' : Char) ∉ n) →
        (¬ ∃ s : List Char, s ≠ [] ∧ ∀ n ∈ names, s <:+: n) →
        get_group_name names = joinU (sortStrs (fallbackFragments names).dedup) ∧
        get_group_name names ≠ []) ∧
    joinU (sortStrs (fallbackFragments ["b_a".data, "cd".data]).dedup) = "a_b_cd".data ∧
    get_group_name ["ab".data, "c_d".data] = "ab_c".data ∧
    fallbackFragments ["ab".data, "c_d".data] = ["ab".data, "c".data] ∧
    "ab_c".data ≠ "ab_c_d".data := by
  refine ⟨fun names h2 hok hsub =>
    ⟨get_group_name_no_common names h2 hok hsub,
      get_group_name_no_common_ne names h2 hok hsub⟩,
    by decide, by decide, by decide, by decide⟩

/-- C6 witness: the sorted-fragment fallback of
`C6_fallback_sorted_fragments` instantiated at the names `b_a` and `c`
(the first containing an underscore), whose no-common-substring
hypothesis is discharged by exhausting the infixes of `c`. -/
theorem C6_fallback_sorted_fragments_witness :
    get_group_name ["b_a".data, "c".data] =
      joinU (sortStrs (fallbackFragments ["b_a".data, "c".data]).dedup) ∧
    get_group_name ["b_a".data, "c".data] ≠ [] :=
  C6_fallback_sorted_fragments.1 ["b_a".data, "c".data] (by decide) (by decide)
    (by
      rintro ⟨s, hne, hall⟩
      have h2 := hall "c".data (by simp)
      have h1 := hall "b_a".data (by simp)
      have hlen := h2.length_le
      rcases s with _ | ⟨a, _ | ⟨b, t⟩⟩
      · exact hne rfl
      · have ha : a ∈ "c".data := List.singleton_sublist.mp h2.sublist
        rw [show "c".data = ['c'] from rfl] at ha
        simp at ha
        subst ha
        have hc : ('c' : Char) ∈ "b_a".data := List.singleton_sublist.mp h1.sublist
        exact absurd hc (by decide)
      · rw [show "c".data = ['c'] from rfl] at hlen
        simp at hlen)

/-- C7: A single-element input is returned unchanged whenever the name
contains no path separator (in particular for every extension-stripped
base name): `get_group_name [name] = name`. -/
theorem C7_single_name :
    ∀ name : List Char, ('/' : Char) ∉ name → get_group_name [name] = name := by
  intro name h
  show pyBasename name = name
  exact pyBasename_no_slash name h

/-- C7 witness: `C7_single_name` at the concrete name `run01`. -/
theorem C7_single_name_witness :
    get_group_name ["run01".data] = "run01".data :=
  C7_single_name "run01".data (by decide)

/-- C8: Per-file errors are local and recoverable: a failing file is
excluded from its group's parse results without disturbing its siblings
and is surfaced in the diagnostics under its own identifier; a group in
which every file fails is excluded from both the violin scene and the
scatter scene while every other group's traces are unchanged. -/
theorem C8_error_locality :
    (∀ (pre post : List FileRec) (f : FileRec) (e : DataError),
        read_data f.2 = .error e →
        validResults (pre ++ f :: post) = validResults (pre ++ post) ∧
        (f.1, e) ∈ diagnostics (pre ++ f :: post)) ∧
    (∀ (gs1 gs2 : List (List FileRec)) (g : List FileRec),
        validResults g = [] →
        violinTraces (gs1 ++ g :: gs2) = violinTraces (gs1 ++ gs2) ∧
        scatterGroups (gs1 ++ g :: gs2) = scatterGroups (gs1 ++ gs2)) := by
  constructor
  · intro pre post f e h
    constructor
    · simp [validResults, List.filterMap_append, List.filterMap_cons, h, Except.toOption]
    · simp only [diagnostics, List.filterMap_append, List.filterMap_cons, h]
      exact List.mem_append.mpr (Or.inr (List.mem_cons_self _ _))
  · intro gs1 gs2 g h
    constructor
    · simp [violinTraces, List.filterMap_append, List.filterMap_cons, h]
    · simp [scatterGroups, List.filterMap_append, List.filterMap_cons, h]

/-- C8 witness: `C8_error_locality` instantiated with a 4-sample file
failing between two valid files. -/
theorem C8_error_locality_witness :
    validResults [("good1.txt", fileA), ("bad.txt", fileFour), ("good2.txt", fileB)] =
      validResults [("good1.txt", fileA), ("good2.txt", fileB)] ∧
    ("bad.txt", DataError.insufficientPoints) ∈
      diagnostics [("good1.txt", fileA), ("bad.txt", fileFour), ("good2.txt", fileB)] :=
  C8_error_locality.1 [("good1.txt", fileA)] [("good2.txt", fileB)]
    ("bad.txt", fileFour) .insufficientPoints (by decide)

/-- C9 counterexample: for `G9` — Count data, combined, minimum tail
sample 10 — the code's violin y-axis range is `(0, 75)` because the lower
bound is clamped by `max(0, min_y - 20)`, not `min_y - 20 = -10` as the
claim's fixed margin of 20 below the minimum would give. -/
theorem C9_range_counterexample :
    anyDistance G9 = false ∧
    (violinTraces G9).flatten = [10, 50] ∧
    isCombined G9 = true ∧
    yaxisRange G9 = some (0, 75) ∧
    (0 : ℚ) ≠ 10 - 20 := by
  have hfl : (violinTraces G9).flatten = [10, 50] := by decide
  have hmin : listMin [(10 : ℚ), 50] = 10 := by
    rw [listMin]
    simp only [List.foldl_cons, List.foldl_nil]
    exact min_eq_left (by norm_num)
  have hmax : listMax [(10 : ℚ), 50] = 50 := by
    rw [listMax]
    simp only [List.foldl_cons, List.foldl_nil]
    exact max_eq_right (by norm_num)
  refine ⟨by decide, hfl, by decide, ?_, by norm_num⟩
  rw [yaxisRange]
  simp only [hfl, show isCombined G9 = true from by decide,
    show anyDistance G9 = false from by decide, hmin, hmax]
  norm_num

/-- C9 (amended): in the combined distribution scene the shared y-axis
range is computed from the global minimum and maximum of all tail
samples, with a proportional 5% margin for Distance data and a fixed
−20/+25 margin for Count data, in both cases with the lower bound
clamped below by 0 (`max(0, ...)`). -/
theorem C9_range_margins :
    ∀ (groups : List (List FileRec)),
      isCombined groups = true →
      (violinTraces groups).flatten ≠ [] →
      ∃ mn mx : ℚ,
        mn ∈ (violinTraces groups).flatten ∧ mx ∈ (violinTraces groups).flatten ∧
        (∀ v ∈ (violinTraces groups).flatten, mn ≤ v ∧ v ≤ mx) ∧
        yaxisRange groups =
          some (if anyDistance groups then (max 0 (mn - mn * (1 / 20)), mx + mx * (1 / 20))
            else (max 0 (mn - 20), mx + 25)) := by
  intro groups hc hne
  refine ⟨listMin ((violinTraces groups).flatten), listMax ((violinTraces groups).flatten),
    (listMin_spec _ hne).1, (listMax_spec _ hne).1,
    fun v hv => ⟨(listMin_spec _ hne).2 v hv, (listMax_spec _ hne).2 v hv⟩, ?_⟩
  have hemp : ((violinTraces groups).flatten).isEmpty = false := by
    simpa [List.isEmpty_iff] using hne
  rw [yaxisRange]
  simp only [hemp, hc, Bool.not_false, Bool.and_self, if_true]
  cases hd : anyDistance groups <;> simp [hd]

/-- C9 witness: `C9_range_margins` instantiated at the concrete group
list `G9`. -/
theorem C9_range_margins_witness :
    ∃ mn mx : ℚ,
      mn ∈ (violinTraces G9).flatten ∧ mx ∈ (violinTraces G9).flatten ∧
      (∀ v ∈ (violinTraces G9).flatten, mn ≤ v ∧ v ≤ mx) ∧
      yaxisRange G9 =
        some (if anyDistance G9 then (max 0 (mn - mn * (1 / 20)), mx + mx * (1 / 20))
          else (max 0 (mn - 20), mx + 25)) :=
  C9_range_margins G9 (by decide) (by decide)

/-- C10: Before numeric conversion, each numeric token is stripped of
every character that is not a digit, a dot or a minus: `12ab3` strips to
`123` and parses as 123 (and a file containing it parses, with 123 in
its series, instead of failing); a record-shaped line raises
`malformedLine` exactly when one of its two stripped tokens still fails
to parse as a float, and lines with fewer than 4 tokens never raise. -/
theorem C10_strip_non_numeric :
    stripToNumeric "12ab3".data = "123".data ∧
    parsePyFloat (stripToNumeric "12ab3".data) = some 123 ∧
    read_data fileStray = .ok ⟨[123, 2, 3, 4, 5], [7, 8, 9, 10, 11], false⟩ ∧
    (∀ (acc : LineAcc) (t0 t1 t2 t3 : List Char) (rest : List (List Char)),
        processParts acc (t0 :: t1 :: t2 :: t3 :: rest) = .error .malformedLine ↔
          parsePyFloat (stripToNumeric t1) = none ∨ parsePyFloat (stripToNumeric t3) = none) ∧
    (∀ (acc : LineAcc) (parts : List (List Char)), parts.length < 4 →
        processParts acc parts = .ok acc) := by
  refine ⟨by decide, by decide, by decide, ?_, ?_⟩
  · intro acc t0 t1 t2 t3 rest
    simp only [processParts]
    cases hx : parsePyFloat (stripToNumeric t1) <;>
      cases hy : parsePyFloat (stripToNumeric t3) <;> simp
  · intro acc parts hlen
    rcases parts with _ | ⟨a, _ | ⟨b, _ | ⟨c, _ | ⟨d, rest⟩⟩⟩⟩
    · rfl
    · rfl
    · rfl
    · rfl
    · simp at hlen; omega

/-- C10 witness: the short-line rule of `C10_strip_non_numeric`
instantiated at a concrete 2-token line, and the malformed-token rule at
a line whose y-token strips to the empty string. -/
theorem C10_strip_non_numeric_witness :
    processParts ⟨[], [], false⟩ ["only".data, "two".data] = .ok ⟨[], [], false⟩ ∧
    (processParts ⟨[], [], false⟩ ["t".data, "1".data, "c".data, "ab".data] =
        .error .malformedLine ↔
      parsePyFloat (stripToNumeric "1".data) = none ∨
        parsePyFloat (stripToNumeric "ab".data) = none) :=
  ⟨C10_strip_non_numeric.2.2.2.2 ⟨[], [], false⟩ ["only".data, "two".data] (by decide),
    C10_strip_non_numeric.2.2.2.1 ⟨[], [], false⟩ "t".data "1".data "c".data "ab".data []⟩
